import Mathlib

/-!
Verification of the directory-snapshot utility in main.py.

The program walks a fixed list of root directories with os.walk, reads every
file it finds (degrading to an error string on any per-file failure), and
concatenates markers, headers, contents and separators into one report file.
The development below embeds the program as pure functions over an inductive
model of the filesystem and proves the documented properties of the output.
-/

/-- A filesystem node: a regular file together with the outcome that opening
it and decoding it as UTF-8 would produce (content on success, rendered
exception message on failure), or a directory with its entries in the order
the operating system reports them. -/
inductive FSNode where
  | file (nm : String) (read : Except String String)
  | dir (nm : String) (entries : List FSNode)

/-- Name of a node inside its parent directory. -/
def FSNode.name : FSNode → String
  | FSNode.file n _ => n
  | FSNode.dir n _ => n

/-- Model of os.path.join for a relative second component, as used on line 33
of main.py: the paths produced by os.walk never end in a slash here. -/
def joinPath (a b : String) : String := a ++ "/" ++ b

/-- Names and read outcomes of the regular files among a directory listing, in
listing order: the files component of an os.walk triple. -/
def entryFiles : List FSNode → List (String × Except String String)
  | [] => []
  | FSNode.file n r :: rest => (n, r) :: entryFiles rest
  | FSNode.dir _ _ :: rest => entryFiles rest

/-- Frames produced by os.walk after its first triple, while it descends
top-down into the subdirectories of a listing: one pair of path and file list
per directory encountered, in traversal order. -/
def walkSub (path : String) : List FSNode → List (String × List (String × Except String String))
  | [] => []
  | FSNode.file _ _ :: rest => walkSub path rest
  | FSNode.dir n es :: rest =>
      ((joinPath path n, entryFiles es) :: walkSub (joinPath path n) es) ++ walkSub path rest

/-- Model of the os.walk call on line 27 of main.py: top-down traversal
yielding one frame per directory, the root first; on a path that is not a
directory it yields no frame at all (os.walk swallows the scandir error). -/
def walk (path : String) : FSNode → List (String × List (String × Except String String))
  | FSNode.file _ _ => []
  | FSNode.dir _ es => (path, entryFiles es) :: walkSub path es

/-- read_file_content from main.py, lines 13 to 17. The argument models the
outcome of the open-and-decode attempt at the given path: on success the
decoded content is returned as is, on any exception the rendered message is
wrapped as an error string and returned rather than raised. -/
def read_file_content (r : Except String String) : String :=
  match r with
  | Except.ok c => c
  | Except.error m => "Error reading file: " ++ m

/-- The separator written by main.py: 80 repetitions of the equals sign. -/
def sep80 : String := String.mk (List.replicate 80 '=')

/-- Text written by the inner loop of list_files_recursive, lines 32 to 39 of
main.py: for each file of the current frame a header, the result of the File
Reader, and a separator flanked by blank lines. -/
def writeFiles (root : String) : List (String × Except String String) → String
  | [] => ""
  | (n, r) :: rest =>
      "\n--- FILE: " ++ joinPath root n ++ " ---\n" ++ read_file_content r ++
        "\n\n" ++ sep80 ++ "\n\n" ++ writeFiles root rest

/-- Text written by the outer loop of list_files_recursive, lines 27 to 39 of
main.py: one Directory marker line per frame, then the file blocks of the
frame. -/
def writeFrames : List (String × List (String × Except String String)) → String
  | [] => ""
  | (root, fls) :: rest =>
      "Directory: " ++ root ++ "\n" ++ writeFiles root fls ++ writeFrames rest

/-- list_files_recursive from main.py, lines 19 to 39, as the text it writes
to the output stream for one root. -/
def list_files_recursive (directory : String) (t : FSNode) : String :=
  writeFrames (walk directory t)

/-- A filesystem as the program observes it: what, if anything, sits at a
given path. The value none models a path for which os.path.exists is false. -/
def FS : Type := String → Option FSNode

/-- The hard-coded root list of main.py, lines 43 to 46. -/
def directories : List String :=
  ["/home/ayes/water-quality-monitor/frontend/components",
   "/home/ayes/water-quality-monitor/frontend/pages"]

/-- Text written for one root by the loop body of main, lines 57 to 64: the
SCANNING banner and separator, then either the walker output or the
not-found line, depending on os.path.exists. -/
def process_directory (fs : FS) (d : String) : String :=
  "SCANNING: " ++ d ++ "\n" ++ sep80 ++ "\n\n" ++
    (match fs d with
     | some t => list_files_recursive d t
     | none => "Directory not found: " ++ d ++ "\n\n")

/-- Text written by the root loop of main for a list of roots, in order. -/
def writeRoots (fs : FS) : List String → String
  | [] => ""
  | d :: rest => process_directory fs d ++ writeRoots fs rest

/-- Full content of files_content.txt after a normal run of main, lines 52 to
66 of main.py: fixed title header, the per-root sections in configured
order, and the fixed trailer line. -/
def main_output (fs : FS) : String :=
  "Files Content\n=============\n\n" ++ writeRoots fs directories ++
    "End of content listing\n"

/-- Concatenation of a list of strings in order. -/
def concatAll : List String → String
  | [] => ""
  | s :: rest => s ++ concatAll rest

/-- The inner loop output is exactly the in-order concatenation of one
content block per file: header, File Reader result, separator. -/
theorem writeFiles_concat (root : String) (l : List (String × Except String String)) :
    writeFiles root l = concatAll (l.map (fun nr =>
      "\n--- FILE: " ++ joinPath root nr.1 ++ " ---\n" ++ read_file_content nr.2 ++
        "\n\n" ++ sep80 ++ "\n\n")) := by
  induction l with
  | nil => rfl
  | cons hd tl ih =>
    obtain ⟨n, r⟩ := hd
    simp [writeFiles, concatAll, ih, String.append_assoc]

/-- The walker output is exactly the in-order concatenation of one section
per frame: marker line, then the content blocks of the files of the frame. -/
theorem writeFrames_concat (l : List (String × List (String × Except String String))) :
    writeFrames l = concatAll (l.map (fun fr =>
      "Directory: " ++ fr.1 ++ "\n" ++ concatAll (fr.2.map (fun nr =>
        "\n--- FILE: " ++ joinPath fr.1 nr.1 ++ " ---\n" ++ read_file_content nr.2 ++
          "\n\n" ++ sep80 ++ "\n\n")))) := by
  induction l with
  | nil => rfl
  | cons hd tl ih =>
    obtain ⟨root, fls⟩ := hd
    simp [writeFrames, concatAll, ih, writeFiles_concat, String.append_assoc]

/-- C1: for every file, the File Reader never raises: if opening and decoding
succeeds it returns the full content unchanged, and on any exception it
returns the string built from the prefix and the exception message, so a
per-file read failure never aborts the run. -/
theorem reader_never_raises (r : Except String String) :
    (∀ c, r = Except.ok c → read_file_content r = c) ∧
    (∀ m, r = Except.error m → read_file_content r = "Error reading file: " ++ m) := by
  constructor
  · rintro c rfl
    rfl
  · rintro m rfl
    rfl

/-- Witness for C1 at concrete read outcomes. -/
theorem reader_never_raises_witness :
    read_file_content (Except.ok "hello") = "hello" ∧
    read_file_content (Except.error "boom") = "Error reading file: " ++ "boom" :=
  ⟨(reader_never_raises (Except.ok "hello")).1 "hello" rfl,
   (reader_never_raises (Except.error "boom")).2 "boom" rfl⟩

/-- C2: for every file entry listed directly inside a visited directory, the
walker writes exactly the header line, then the string the File Reader
returned for that path, then the separator of 80 equals characters flanked by
blank lines, in that order: the walker output is the in-order concatenation
of one Directory marker per visited directory followed by exactly these three
pieces for each of its files. -/
theorem walker_block_structure (directory : String) (t : FSNode) :
    list_files_recursive directory t = concatAll ((walk directory t).map (fun fr =>
      "Directory: " ++ fr.1 ++ "\n" ++ concatAll (fr.2.map (fun nr =>
        "\n--- FILE: " ++ joinPath fr.1 nr.1 ++ " ---\n" ++ read_file_content nr.2 ++
          "\n\n" ++ sep80 ++ "\n\n")))) :=
  writeFrames_concat (walk directory t)

/-- C5: on every normal completion the output file begins with the fixed
title header and ends with the fixed trailer line, whatever the filesystem
state of the configured roots. -/
theorem output_header_trailer (fs : FS) :
    (∃ mid, main_output fs = "Files Content\n=============\n\n" ++ mid) ∧
    (∃ front, main_output fs = front ++ "End of content listing\n") :=
  ⟨⟨writeRoots fs directories ++ "End of content listing\n", by
      simp [main_output, String.append_assoc]⟩,
   ⟨"Files Content\n=============\n\n" ++ writeRoots fs directories, rfl⟩⟩

/-- C8: for every configured root, existing or not, the per-root output
starts with the SCANNING banner and the 80-equals separator before anything
else, and roots are processed strictly in configured order, the whole output
of an earlier root preceding that of any later root. -/
theorem banner_first_roots_in_order (fs : FS) (d : String) :
    (∃ rest, process_directory fs d =
        "SCANNING: " ++ d ++ "\n" ++ sep80 ++ "\n\n" ++ rest) ∧
    (∀ ds, writeRoots fs (d :: ds) = process_directory fs d ++ writeRoots fs ds) :=
  ⟨⟨(match fs d with
     | some t => list_files_recursive d t
     | none => "Directory not found: " ++ d ++ "\n\n"), rfl⟩,
   fun _ => rfl⟩

/-- C9: the existence check of main tests presence, not directory-ness: a
root that exists as a regular file passes the check, and the walker then
emits nothing at all for it: no Directory marker, no file block, and no
not-found line, only the banner. -/
theorem existing_file_root_silent (fs : FS) (d n : String) (r : Except String String)
    (h : fs d = some (FSNode.file n r)) :
    (fs d).isSome = true ∧
    process_directory fs d = "SCANNING: " ++ d ++ "\n" ++ sep80 ++ "\n\n" ∧
    list_files_recursive d (FSNode.file n r) = "" := by
  refine ⟨by simp [h], ?_, rfl⟩
  simp [process_directory, h, list_files_recursive, walk, writeFrames]

/-- Filesystem that places one regular file at every path. -/
def fsFileDemo : FS := fun _ => some (FSNode.file "a" (Except.ok "c"))

/-- Witness for C9 at a concrete filesystem and root. -/
theorem existing_file_root_silent_witness :
    (fsFileDemo "/p").isSome = true ∧
    process_directory fsFileDemo "/p" = "SCANNING: " ++ "/p" ++ "\n" ++ sep80 ++ "\n\n" ∧
    list_files_recursive "/p" (FSNode.file "a" (Except.ok "c")) = "" :=
  existing_file_root_silent fsFileDemo "/p" "a" (Except.ok "c") rfl

/-- C10: for an existing root directory with no entries at all, the walker
output for that root is exactly the single Directory marker line, with no
file header and no separator. -/
theorem empty_root_single_line (d n : String) :
    list_files_recursive d (FSNode.dir n []) = "Directory: " ++ d ++ "\n" := by
  simp [list_files_recursive, walk, walkSub, entryFiles, writeFrames, writeFiles]

/-- C4: for a root directory holding exactly one file named a.txt with
content hello and no subdirectory, the walker output for that root is
exactly the Directory marker, the file block for a.txt, and the separator,
as one literal string around the root path. -/
theorem single_file_example (root n : String) :
    list_files_recursive root (FSNode.dir n [FSNode.file "a.txt" (Except.ok "hello")]) =
      "Directory: " ++ root ++ "\n\n--- FILE: " ++ root ++
        "/a.txt ---\nhello\n\n================================================================================\n\n" := by
  have e1 : ("\n\n--- FILE: " : String) = "\n" ++ "\n--- FILE: " := rfl
  have e2 : ("/a.txt ---\nhello\n\n================================================================================\n\n" : String) =
      "/" ++ "a.txt" ++ " ---\n" ++ "hello" ++ "\n\n" ++ String.mk (List.replicate 80 '=') ++ "\n\n" := rfl
  rw [e2]
  simp [list_files_recursive, walk, walkSub, entryFiles, writeFrames, writeFiles,
    read_file_content, joinPath, sep80, String.append_assoc]
  rw [e1, String.append_assoc]

/-- Occurrence test: does the needle occur as a contiguous run anywhere in
the haystack? -/
def hasSub (needle : List Char) : List Char → Bool
  | [] => needle.isEmpty
  | c :: rest => needle.isPrefixOf (c :: rest) || hasSub needle rest

/-- C3: for every configured root that does not exist at invocation time, the
per-root output after the banner is exactly the not-found line, that text
holds no Directory marker and no FILE header, and the root loop continues
with the remaining roots. -/
theorem missing_root_reported (fs : FS) (d : String)
    (hmem : d ∈ directories) (h : fs d = none) :
    process_directory fs d =
      "SCANNING: " ++ d ++ "\n" ++ sep80 ++ "\n\n" ++
        ("Directory not found: " ++ d ++ "\n\n") ∧
    hasSub ("Directory: ".data) ("Directory not found: " ++ d ++ "\n\n").data = false ∧
    hasSub ("--- FILE:".data) ("Directory not found: " ++ d ++ "\n\n").data = false ∧
    (∀ rest, writeRoots fs (d :: rest) = process_directory fs d ++ writeRoots fs rest) := by
  refine ⟨by simp [process_directory, h], ?_, ?_, fun _ => rfl⟩ <;>
    simp only [directories, List.mem_cons, List.not_mem_nil, or_false] at hmem <;>
    rcases hmem with rfl | rfl <;> decide

/-- Filesystem with nothing at any path. -/
def fsNone : FS := fun _ => none

/-- Witness for C3 at a concrete filesystem and the first configured root. -/
theorem missing_root_reported_witness :
    process_directory fsNone "/home/ayes/water-quality-monitor/frontend/components" =
      "SCANNING: " ++ "/home/ayes/water-quality-monitor/frontend/components" ++ "\n" ++
        sep80 ++ "\n\n" ++
        ("Directory not found: " ++
          "/home/ayes/water-quality-monitor/frontend/components" ++ "\n\n") ∧
    writeRoots fsNone
        ("/home/ayes/water-quality-monitor/frontend/components" ::
          ["/home/ayes/water-quality-monitor/frontend/pages"]) =
      process_directory fsNone "/home/ayes/water-quality-monitor/frontend/components" ++
        writeRoots fsNone ["/home/ayes/water-quality-monitor/frontend/pages"] :=
  ⟨(missing_root_reported fsNone _ (by simp [directories]) rfl).1,
   (missing_root_reported fsNone _ (by simp [directories]) rfl).2.2.2
     ["/home/ayes/water-quality-monitor/frontend/pages"]⟩

/-- Roots are read through the filesystem pointwise, so the written text only
depends on what the filesystem holds at the listed roots. -/
theorem writeRoots_ext (fs₁ fs₂ : FS) :
    ∀ ds : List String, (∀ d ∈ ds, fs₁ d = fs₂ d) → writeRoots fs₁ ds = writeRoots fs₂ ds := by
  intro ds
  induction ds with
  | nil => intro _; rfl
  | cons d rest ih =>
    intro h
    have hd := h d (by simp)
    have ht := ih (fun x hx => h x (by simp [hx]))
    simp [writeRoots, process_directory, hd, ht]

/-- C7: the report is a deterministic function of the filesystem state of the
configured roots: two runs over filesystems that agree on the configured
roots produce byte-identical output files. -/
theorem output_deterministic (fs₁ fs₂ : FS)
    (h : ∀ d ∈ directories, fs₁ d = fs₂ d) :
    main_output fs₁ = main_output fs₂ := by
  simp [main_output, writeRoots_ext fs₁ fs₂ directories h]

/-- Witness for C7 at two concrete filesystems agreeing on the roots. -/
theorem output_deterministic_witness :
    main_output fsNone = main_output (fun _ => none) :=
  output_deterministic fsNone (fun _ => none) (fun _ _ => rfl)

/-- Paths of the directories visited while descending below a listing. -/
def subPaths (path : String) (es : List FSNode) : List String :=
  (walkSub path es).map Prod.fst

/-- Paths of all directories the walk visits: one per frame. -/
def framePaths (path : String) (t : FSNode) : List String :=
  (walk path t).map Prod.fst

/-- Paths handed to the File Reader during the walk, in reading order: every
file of every frame, joined to the frame path as on line 33 of main.py. -/
def readPaths (path : String) (t : FSNode) : List String :=
  (walk path t).flatMap (fun fr => fr.2.map (fun nr => joinPath fr.1 nr.1))

/-- Well-formed filesystem subtree, as any real on-disk tree is: within each
directory the entry names are pairwise distinct, and every name is nonempty
and free of the path separator. -/
inductive WF : FSNode → Prop where
  | file : ∀ (n : String) (r : Except String String), WF (FSNode.file n r)
  | dir : ∀ (n : String) (es : List FSNode),
      (es.map FSNode.name).Nodup →
      (∀ e ∈ es, e.name ≠ "" ∧ '/' ∉ e.name.data) →
      (∀ e ∈ es, WF e) → WF (FSNode.dir n es)

/-- Character content of the separator literal. -/
theorem slash_data : ("/" : String).data = ['/'] := rfl

/-- Character content of a joined path. -/
theorem joinPath_data (a b : String) : (joinPath a b).data = a.data ++ '/' :: b.data := by
  simp [joinPath, String.data_append, slash_data]

/-- Cancellation along a slash boundary: two slash-free runs followed by
nothing or by a slash-led tail agree as soon as their concatenations do. -/
theorem slashfree_cancel {a b s t : List Char}
    (ha : '/' ∉ a) (hb : '/' ∉ b)
    (hs : s = [] ∨ ∃ u, s = '/' :: u) (ht : t = [] ∨ ∃ v, t = '/' :: v)
    (h : a ++ s = b ++ t) : a = b ∧ s = t := by
  induction a generalizing b with
  | nil =>
    cases b with
    | nil => simpa using h
    | cons c b2 =>
      exfalso
      simp only [List.nil_append, List.cons_append] at h
      rcases hs with rfl | ⟨u, rfl⟩
      · exact List.noConfusion h
      · have hc : '/' = c := List.head_eq_of_cons_eq h
        exact hb (hc ▸ List.mem_cons_self c b2)
  | cons c a2 ih =>
    cases b with
    | nil =>
      exfalso
      simp only [List.nil_append, List.cons_append] at h
      rcases ht with rfl | ⟨v, rfl⟩
      · exact List.noConfusion h
      · have hc : c = '/' := List.head_eq_of_cons_eq h
        exact ha (hc ▸ List.mem_cons_self c a2)
    | cons c2 b2 =>
      simp only [List.cons_append] at h
      have hc : c = c2 := List.head_eq_of_cons_eq h
      have hrest : a2 ++ s = b2 ++ t := List.tail_eq_of_cons_eq h
      have ih2 := ih (fun hm => ha (List.mem_cons_of_mem _ hm))
        (fun hm => hb (List.mem_cons_of_mem _ hm)) hrest
      exact ⟨by rw [hc, ih2.1], ih2.2⟩

/-- Every path visited below a listing strictly extends the current path with
a slash. -/
theorem subPaths_ext : ∀ (path : String) (es : List FSNode) (p : String),
    p ∈ subPaths path es → ∃ u, p.data = path.data ++ '/' :: u := by
  intro path es
  induction path, es using walkSub.induct with
  | case1 path =>
    intro p hp
    simp [subPaths, walkSub] at hp
  | case2 path n r rest ih =>
    intro p hp
    exact ih p (by simpa [subPaths, walkSub] using hp)
  | case3 path n es rest ih1 ih2 =>
    intro p hp
    simp only [subPaths, walkSub, List.map_append, List.map_cons, List.mem_append,
      List.mem_cons] at hp
    rcases hp with (rfl | hp1) | hp2
    · exact ⟨n.data, joinPath_data path n⟩
    · obtain ⟨u, hu⟩ := ih1 p (by simpa [subPaths] using hp1)
      refine ⟨n.data ++ '/' :: u, ?_⟩
      rw [hu, joinPath_data]
      simp
    · exact ih2 p (by simpa [subPaths] using hp2)

/-- Every visited subdirectory path sits under the name of some directory
entry of the listing: that name follows the current path, and is followed by
nothing or by a slash. -/
theorem subPaths_shape : ∀ (path : String) (es : List FSNode) (p : String),
    p ∈ subPaths path es → ∃ n es2, FSNode.dir n es2 ∈ es ∧
      ∃ s, p.data = path.data ++ '/' :: (n.data ++ s) ∧ (s = [] ∨ ∃ u, s = '/' :: u) := by
  intro path es
  induction path, es using walkSub.induct with
  | case1 path =>
    intro p hp
    simp [subPaths, walkSub] at hp
  | case2 path n r rest ih =>
    intro p hp
    obtain ⟨m, es2, hmem, hrest⟩ := ih p (by simpa [subPaths, walkSub] using hp)
    exact ⟨m, es2, List.mem_cons_of_mem _ hmem, hrest⟩
  | case3 path n es rest ih1 ih2 =>
    intro p hp
    simp only [subPaths, walkSub, List.map_append, List.map_cons, List.mem_append,
      List.mem_cons] at hp
    rcases hp with (rfl | hp1) | hp2
    · exact ⟨n, es, List.mem_cons_self _ _,
        [], by simpa using joinPath_data path n, Or.inl rfl⟩
    · obtain ⟨u, hu⟩ := subPaths_ext _ _ p (by simpa [subPaths] using hp1)
      refine ⟨n, es, List.mem_cons_self _ _, '/' :: u, ?_, Or.inr ⟨u, rfl⟩⟩
      rw [hu, joinPath_data]
      simp
    · obtain ⟨m, es2, hmem, hrest⟩ := ih2 p (by simpa [subPaths] using hp2)
      exact ⟨m, es2, List.mem_cons_of_mem _ hmem, hrest⟩

/-- On a well-formed listing the visited directory paths are pairwise
distinct: sibling subtrees live under distinct slash-free names. -/
theorem subPaths_nodup : ∀ (path : String) (es : List FSNode),
    (es.map FSNode.name).Nodup → (∀ e ∈ es, e.name ≠ "" ∧ '/' ∉ e.name.data) →
    (∀ e ∈ es, WF e) → (subPaths path es).Nodup := by
  intro path es
  induction path, es using walkSub.induct with
  | case1 path =>
    intro _ _ _
    simp [subPaths, walkSub]
  | case2 path n r rest ih =>
    intro h1 h2 h3
    rw [List.map_cons] at h1
    have := ih (List.nodup_cons.mp h1).2
      (fun e he => h2 e (List.mem_cons_of_mem _ he))
      (fun e he => h3 e (List.mem_cons_of_mem _ he))
    simpa [subPaths, walkSub] using this
  | case3 path n es rest ih1 ih2 =>
    intro h1 h2 h3
    rw [List.map_cons] at h1
    have hn_notin : n ∉ rest.map FSNode.name := (List.nodup_cons.mp h1).1
    have hrest_nodup : (rest.map FSNode.name).Nodup := (List.nodup_cons.mp h1).2
    cases h3 _ (List.mem_cons_self _ _) with
    | dir _ _ hin_nodup hin_good hin_wf =>
      have hgoodn := h2 _ (List.mem_cons_self _ _)
      simp only [FSNode.name] at hgoodn
      have left1 : joinPath path n ∉ subPaths (joinPath path n) es := by
        intro hm
        obtain ⟨u, hu⟩ := subPaths_ext _ _ _ hm
        have := congrArg List.length hu
        simp at this
      have left2 : (subPaths (joinPath path n) es).Nodup := ih1 hin_nodup hin_good hin_wf
      have right : (subPaths path rest).Nodup := ih2 hrest_nodup
        (fun e he => h2 e (List.mem_cons_of_mem _ he))
        (fun e he => h3 e (List.mem_cons_of_mem _ he))
      have disj : (joinPath path n :: subPaths (joinPath path n) es).Disjoint
          (subPaths path rest) := by
        intro p hp hq
        have under1 : ∃ s, p.data = path.data ++ '/' :: (n.data ++ s) ∧
            (s = [] ∨ ∃ u, s = '/' :: u) := by
          rcases List.mem_cons.mp hp with rfl | hp2
          · exact ⟨[], by simpa using joinPath_data path n, Or.inl rfl⟩
          · obtain ⟨u, hu⟩ := subPaths_ext _ _ _ hp2
            refine ⟨'/' :: u, ?_, Or.inr ⟨u, rfl⟩⟩
            rw [hu, joinPath_data]
            simp
        obtain ⟨m, es2, hmem2, s2, hs2, hcase2⟩ := subPaths_shape _ _ _ hq
        obtain ⟨s1, hs1, hcase1⟩ := under1
        have hgoodm := h2 _ (List.mem_cons_of_mem _ hmem2)
        simp only [FSNode.name] at hgoodm
        have heq : n.data ++ s1 = m.data ++ s2 := by
          have h12 : path.data ++ '/' :: (n.data ++ s1) =
              path.data ++ '/' :: (m.data ++ s2) := hs1.symm.trans hs2
          have := List.append_cancel_left h12
          exact List.tail_eq_of_cons_eq this
        have hnm : n = m :=
          String.ext (slashfree_cancel hgoodn.2 hgoodm.2 hcase1 hcase2 heq).1
        exact hn_notin (List.mem_map.mpr ⟨FSNode.dir m es2, hmem2, by
          simp [FSNode.name, hnm]⟩)
      have : ((joinPath path n :: subPaths (joinPath path n) es) ++
          subPaths path rest).Nodup :=
        List.Nodup.append (List.nodup_cons.mpr ⟨left1, left2⟩) right disj
      simpa [subPaths, walkSub] using this

/-- On a well-formed subtree no directory path repeats among the frames. -/
theorem framePaths_nodup (path : String) (t : FSNode) (h : WF t) :
    (framePaths path t).Nodup := by
  cases t with
  | file n r => simp [framePaths, walk]
  | dir n es =>
    cases h with
    | dir _ _ h1 h2 h3 =>
      have h0 : path ∉ subPaths path es := by
        intro hm
        obtain ⟨u, hu⟩ := subPaths_ext _ _ _ hm
        have := congrArg List.length hu
        simp at this
      have : (path :: subPaths path es).Nodup :=
        List.nodup_cons.mpr ⟨h0, subPaths_nodup path es h1 h2 h3⟩
      simpa [framePaths, walk, subPaths] using this

/-- The file names of a listing form a sublist of all its entry names. -/
theorem entryFiles_fst_sublist : ∀ es : List FSNode,
    List.Sublist ((entryFiles es).map Prod.fst) (es.map FSNode.name) := by
  intro es
  induction es with
  | nil => simp [entryFiles]
  | cons e rest ih =>
    cases e with
    | file n r => exact List.Sublist.cons₂ n ih
    | dir n es2 => exact List.Sublist.cons n ih

/-- A name and outcome taken from the file component of a listing come from a
file entry of that listing. -/
theorem mem_entryFiles : ∀ (es : List FSNode) (n : String) (r : Except String String),
    (n, r) ∈ entryFiles es → FSNode.file n r ∈ es := by
  intro es
  induction es with
  | nil => intro n r h; simp [entryFiles] at h
  | cons e rest ih =>
    intro n r h
    cases e with
    | file n2 r2 =>
      rcases List.mem_cons.mp h with heq | hmem
      · rw [Prod.mk.injEq] at heq
        rw [heq.1, heq.2]
        exact List.mem_cons_self _ _
      · exact List.mem_cons_of_mem _ (ih n r hmem)
    | dir n2 es2 => exact List.mem_cons_of_mem _ (ih n r h)

/-- The files of a well-formed listing have pairwise distinct, nonempty,
slash-free names. -/
theorem entryFiles_wf (es : List FSNode)
    (h1 : (es.map FSNode.name).Nodup)
    (h2 : ∀ e ∈ es, e.name ≠ "" ∧ '/' ∉ e.name.data) :
    ((entryFiles es).map Prod.fst).Nodup ∧
      ∀ nr ∈ entryFiles es, nr.1 ≠ "" ∧ '/' ∉ nr.1.data := by
  constructor
  · exact List.Nodup.sublist (entryFiles_fst_sublist es) h1
  · intro nr hnr
    obtain ⟨n, r⟩ := nr
    have := h2 _ (mem_entryFiles es n r hnr)
    simpa [FSNode.name] using this

/-- Below a well-formed listing, every frame carries files with pairwise
distinct, nonempty, slash-free names. -/
theorem walkSub_frames_wf : ∀ (path : String) (es : List FSNode),
    (∀ e ∈ es, WF e) → ∀ fr ∈ walkSub path es,
      ((fr.2.map Prod.fst).Nodup ∧ ∀ nr ∈ fr.2, nr.1 ≠ "" ∧ '/' ∉ nr.1.data) := by
  intro path es
  induction path, es using walkSub.induct with
  | case1 path =>
    intro _ fr hfr
    simp [walkSub] at hfr
  | case2 path n r rest ih =>
    intro hw fr hfr
    exact ih (fun e he => hw e (List.mem_cons_of_mem _ he)) fr
      (by simpa [walkSub] using hfr)
  | case3 path n es rest ih1 ih2 =>
    intro hw fr hfr
    simp only [walkSub, List.mem_append, List.mem_cons] at hfr
    rcases hfr with (rfl | hfr1) | hfr2
    · cases hw _ (List.mem_cons_self _ _) with
      | dir _ _ hin_nodup hin_good _ => exact entryFiles_wf es hin_nodup hin_good
    · cases hw _ (List.mem_cons_self _ _) with
      | dir _ _ _ _ hin_wf => exact ih1 hin_wf fr hfr1
    · exact ih2 (fun e he => hw e (List.mem_cons_of_mem _ he)) fr hfr2

/-- Every frame of a walk over a well-formed subtree carries files with
pairwise distinct, nonempty, slash-free names. -/
theorem walk_frames_wf (path : String) (t : FSNode) (h : WF t) :
    ∀ fr ∈ walk path t,
      ((fr.2.map Prod.fst).Nodup ∧ ∀ nr ∈ fr.2, nr.1 ≠ "" ∧ '/' ∉ nr.1.data) := by
  cases t with
  | file n r => intro fr hfr; simp [walk] at hfr
  | dir n es =>
    cases h with
    | dir _ _ h1 h2 h3 =>
      intro fr hfr
      rcases List.mem_cons.mp hfr with rfl | hfr2
      · exact entryFiles_wf es h1 h2
      · exact walkSub_frames_wf path es h3 fr hfr2

/-- Joining distinct names to one directory gives distinct paths. -/
theorem joinPath_cancel {p x y : String} (h : joinPath p x = joinPath p y) : x = y := by
  have hd := congrArg String.data h
  rw [joinPath_data, joinPath_data] at hd
  exact String.ext (List.tail_eq_of_cons_eq (List.append_cancel_left hd))

/-- A joined path with a slash-free last component determines both the
directory and the component. -/
theorem joinPath_inj {p1 p2 x y : String} (hx : '/' ∉ x.data) (hy : '/' ∉ y.data)
    (h : joinPath p1 x = joinPath p2 y) : p1 = p2 ∧ x = y := by
  have hd := congrArg String.data h
  rw [joinPath_data, joinPath_data] at hd
  have hrev : x.data.reverse ++ '/' :: p1.data.reverse =
      y.data.reverse ++ '/' :: p2.data.reverse := by
    have := congrArg List.reverse hd
    simpa [List.reverse_append] using this
  have hxr : '/' ∉ x.data.reverse := by simpa using hx
  have hyr : '/' ∉ y.data.reverse := by simpa using hy
  have hc := slashfree_cancel hxr hyr (Or.inr ⟨p1.data.reverse, rfl⟩)
    (Or.inr ⟨p2.data.reverse, rfl⟩) hrev
  have hx2 : x = y := String.ext (by
    have := congrArg List.reverse hc.1
    simpa using this)
  have hp2 : p1 = p2 := String.ext (by
    have := congrArg List.reverse (List.tail_eq_of_cons_eq hc.2)
    simpa using this)
  exact ⟨hp2, hx2⟩

/-- On a well-formed subtree no file path is handed to the File Reader
twice. -/
theorem readPaths_nodup (path : String) (t : FSNode) (h : WF t) :
    (readPaths path t).Nodup := by
  rw [readPaths, List.nodup_flatMap]
  constructor
  · intro fr hfr
    have hfst := (walk_frames_wf path t h fr hfr).1
    have hmm : fr.2.map (fun nr => joinPath fr.1 nr.1) =
        (fr.2.map Prod.fst).map (fun x => joinPath fr.1 x) := by
      simp [List.map_map]
    rw [hmm]
    exact List.Nodup.map (fun a b hab => joinPath_cancel hab) hfst
  · have hnd := framePaths_nodup path t h
    have hpair : (walk path t).Pairwise (fun f g => f.1 ≠ g.1) := by
      rw [framePaths] at hnd
      exact List.pairwise_map.mp hnd
    refine List.Pairwise.imp_of_mem ?_ hpair
    intro f g hf hg hne
    intro p hp hq
    simp only [List.mem_map] at hp hq
    obtain ⟨nr1, hnr1, heq1⟩ := hp
    obtain ⟨nr2, hnr2, heq2⟩ := hq
    have hg1 := ((walk_frames_wf path t h f hf).2 nr1 hnr1).2
    have hg2 := ((walk_frames_wf path t h g hg).2 nr2 hnr2).2
    exact hne (joinPath_inj hg1 hg2 (heq1.trans heq2.symm)).1

/-- The Directory marker line written for a visited directory. -/
def dirMarker (p : String) : String := "Directory: " ++ p ++ "\n"

/-- Distinct paths give distinct Directory marker lines. -/
theorem dirMarker_inj : Function.Injective dirMarker := by
  intro a b hab
  have hd := congrArg String.data hab
  simp only [dirMarker, String.data_append] at hd
  exact String.ext (List.append_cancel_left (List.append_cancel_right hd))

/-- C6: over a well-formed subtree, the walk visits every directory exactly
once: each visited path appears exactly once among the frames, the Directory
marker line written for it is emitted exactly once, and every regular file
entry of every listing is handed to the File Reader exactly once. -/
theorem walk_visits_each_once (root : String) (t : FSNode) (h : WF t) :
    (∀ p ∈ framePaths root t, (framePaths root t).count p = 1) ∧
    (∀ p ∈ framePaths root t,
      ((walk root t).map (fun fr => dirMarker fr.1)).count (dirMarker p) = 1) ∧
    (∀ q ∈ readPaths root t, (readPaths root t).count q = 1) := by
  refine ⟨fun p hp => List.count_eq_one_of_mem (framePaths_nodup root t h) hp, ?_,
    fun q hq => List.count_eq_one_of_mem (readPaths_nodup root t h) hq⟩
  intro p hp
  have hmaps : (walk root t).map (fun fr => dirMarker fr.1) =
      (framePaths root t).map dirMarker := by
    simp [framePaths, List.map_map]
  rw [hmaps, List.count_map_of_injective _ _ dirMarker_inj]
  exact List.count_eq_one_of_mem (framePaths_nodup root t h) hp

/-- Small concrete tree: one file and one subdirectory holding one file. -/
def demoTree : FSNode :=
  FSNode.dir "components" [FSNode.file "a.txt" (Except.ok "x"),
    FSNode.dir "sub" [FSNode.file "b.txt" (Except.error "denied")]]

/-- The demo tree is well formed. -/
theorem demoTree_wf : WF demoTree := by
  refine WF.dir _ _ (by decide) (by decide) ?_
  intro e he
  simp only [List.mem_cons, List.not_mem_nil, or_false] at he
  rcases he with rfl | rfl
  · exact WF.file _ _
  · refine WF.dir _ _ (by decide) (by decide) ?_
    intro e2 he2
    simp only [List.mem_cons, List.not_mem_nil, or_false] at he2
    rcases he2 with rfl
    exact WF.file _ _

/-- Witness for C6 at a concrete well-formed tree. -/
theorem walk_visits_each_once_witness :
    (framePaths "/r" demoTree).count "/r/sub" = 1 ∧
    (readPaths "/r" demoTree).count "/r/sub/b.txt" = 1 :=
  ⟨(walk_visits_each_once "/r" demoTree demoTree_wf).1 "/r/sub"
      (by simp [framePaths, walk, walkSub, entryFiles, demoTree, joinPath]),
   (walk_visits_each_once "/r" demoTree demoTree_wf).2.2 "/r/sub/b.txt"
      (by simp [readPaths, walk, walkSub, entryFiles, demoTree, joinPath])⟩
